import Mathlib

/-!
Shallow embedding of the fisher job processor (src/src/processor.rs) and the
manager / worker logic around it.  Pure data stands in for channel endpoints;
a worker thread is represented by its scheduler-visible state (the atomic
`busy` flag and the `should_stop` mark set by `Thread::stop`).  Rust panics
(out-of-bounds `Vec::remove`, `unwrap` on a closed channel) are modelled by
`Option`/`Except` error results.
-/

namespace Fisher

/-- A job (`jobs::Job` is not part of the scheduler core: the scheduler treats
it as uninterpreted data; the worker only consults `hook_name()` for logging).  An
`id` field keeps distinct jobs distinguishable in the queue. -/
structure Job where
  id : Nat
  hook_name : String
deriving DecidableEq, Repr

/-- Scheduler-visible state of one worker thread (`Thread` in processor.rs):
the `should_stop` field and the shared atomic `busy` flag. -/
structure Thread where
  should_stop : Bool
  busy : Bool
deriving DecidableEq, Repr

/-- The constructor `Thread::new` spawns the worker loop with `busy = false` and
`should_stop = false`. -/
def Thread.initial : Thread :=
  { should_stop := false, busy := false }

/-- The method `Thread::process`: if the thread is marked stopping or its busy flag is
set, reject and hand the job back (`Some(job)`); otherwise set `busy` to true
(before the command is enqueued to the worker) and accept (`None`). -/
def Thread.process (t : Thread) (job : Job) : Thread × Option Job :=
  if t.should_stop || t.busy then (t, some job)
  else ({ t with busy := true }, none)

/-- The record `HealthDetails` as sent back on a `HealthStatus` probe. -/
structure HealthDetails where
  queue_size : Nat
  active_jobs : Nat
deriving DecidableEq, Repr

/-- The `Processor` state: the overflow queue (`VecDeque`, head first), the
stop flag, the worker list and the configured `max_threads` (a `u16` in the
source; modelled as `Nat`, all arithmetic on it is plain comparison).  The
`hooks` handle and the channel endpoints carry no scheduler-relevant state
and are omitted. -/
structure Processor where
  jobs : List Job
  should_stop : Bool
  threads : List Thread
  max_threads : Nat
deriving DecidableEq, Repr

/-- Input messages of the scheduler event loop (`ProcessorInput`).  The
`HealthStatus` reply channel is modelled by the step result carrying the
reply value. -/
inductive ProcessorInput where
  | StopSignal : ProcessorInput
  | Job : Fisher.Job → ProcessorInput
  | JobEnded : ProcessorInput
  | HealthStatus : ProcessorInput
deriving DecidableEq, Repr

/-- Outcome of processing one received message: continue the loop with a new
state (possibly emitting a health reply), `break` out of the loop, or panic
(a Rust runtime fault such as an out-of-bounds `Vec::remove`). -/
inductive StepResult where
  | next : Processor → Option HealthDetails → StepResult
  | exit : Processor → StepResult
  | panicked : StepResult
deriving DecidableEq, Repr

/-- The constructor `Processor::new`: construction is infallible; it starts with an empty
queue, `should_stop = false` and no threads (threads are spawned in `run`). -/
def Processor.new (max_threads : Nat) : Processor :=
  { jobs := [], should_stop := false, threads := [], max_threads := max_threads }

/-- The thread-spawning prologue of `Processor::run`:
`for _ in 0..max_threads { self.spawn_thread(); }`. -/
def Processor.run_init (p : Processor) : Processor :=
  { p with threads := p.threads ++ List.replicate p.max_threads Thread.initial }

/-- The loop body of `Processor::run_job`: try each thread in index order;
the first that accepts ends the iteration (`None` = success), otherwise the
rejected job is carried to the next thread and finally returned
(`Some(job)` = every thread rejected). -/
def runJobThreads : List Thread → Job → List Thread × Option Job
  | [], job => ([], some job)
  | t :: ts, job =>
    match t.process job with
    | (t', none) => (t' :: ts, none)
    | (t', some j) =>
      match runJobThreads ts j with
      | (ts', r) => (t' :: ts', r)

/-- The method `Processor::run_job` on the processor state. -/
def Processor.run_job (p : Processor) (job : Job) : Processor × Option Job :=
  match runJobThreads p.threads job with
  | (ts, r) => ({ p with threads := ts }, r)

/-- The loop of `Processor::run_jobs` over (threads, queue): dispatch the job;
on failure push it to the front (`push_front = true`) or the back of the
queue and stop; on success pop the queue head and repeat until the queue is
empty. -/
def run_jobsAux : List Thread → List Job → Job → Bool → List Thread × List Job
  | ts, queue, job, pf =>
    match runJobThreads ts job with
    | (ts', some j) => (ts', if pf then j :: queue else queue ++ [j])
    | (ts', none) =>
      match queue with
      | [] => (ts', [])
      | j :: rest => run_jobsAux ts' rest j pf

/-- The method `Processor::run_jobs`. -/
def Processor.run_jobs (p : Processor) (job : Job) (pf : Bool) : Processor :=
  match run_jobsAux p.threads p.jobs job pf with
  | (ts, q) => { p with threads := ts, jobs := q }

/-- Number of successful dispatches performed by one `run_jobs` call (ghost
measure mirroring the recursion of `run_jobsAux`): the dispatched jobs are
exactly the first `dispatchCount` elements of `job :: queue`, in order. -/
def dispatchCount : List Thread → List Job → Job → Nat
  | ts, queue, job =>
    match runJobThreads ts job with
    | (_, some _) => 0
    | (ts', none) =>
      match queue with
      | [] => 1
      | j :: rest => 1 + dispatchCount ts' rest j

/-- The loop of `Processor::busy_threads` counts the workers whose busy flag is set. -/
def busyCount : List Thread → Nat
  | [] => 0
  | t :: ts => (if t.busy then 1 else 0) + busyCount ts

/-- The method `Processor::busy_threads`. -/
def Processor.busy_threads (p : Processor) : Nat :=
  busyCount p.threads

/-- First pass of `Processor::cleanup_threads`: walk the thread list with its
indices, skip busy threads, and mark index `i` for removal while
`should_stop` holds or more than `max_threads` threads remain
(`remaining` starts at the list length and drops by one per marked thread). -/
def toRemoveGo (ss : Bool) (mt : Nat) : List Thread → Nat → Nat → List Nat
  | [], _, _ => []
  | t :: rest, i, remaining =>
    if t.busy then toRemoveGo ss mt rest (i + 1) remaining
    else if ss || remaining > mt then
      i :: toRemoveGo ss mt rest (i + 1) (remaining - 1)
    else toRemoveGo ss mt rest (i + 1) remaining

/-- The `to_remove` index list computed by `Processor::cleanup_threads`. -/
def computeToRemove (ts : List Thread) (ss : Bool) (mt : Nat) : List Nat :=
  toRemoveGo ss mt ts 0 ts.length

/-- Semantics of `Vec::remove(i)`: return the removed element and the remainder, or `none`
(a panic) when `i` is out of bounds. -/
def listRemoveAt : List Thread → Nat → Option (Thread × List Thread)
  | [], _ => none
  | x :: xs, 0 => some (x, xs)
  | x :: xs, n + 1 =>
    match listRemoveAt xs n with
    | none => none
    | some (y, ys) => some (y, x :: ys)

/-- Second pass of `Processor::cleanup_threads`: remove each marked index, in
order, from the *shifting* vector (exactly as the source does).  Returns the
removed threads (each then gets `Thread::stop`) and the remaining list, or
`none` when some `Vec::remove` goes out of bounds and panics. -/
def removeAll : List Thread → List Nat → Option (List Thread × List Thread)
  | ts, [] => some ([], ts)
  | ts, i :: is =>
    match listRemoveAt ts i with
    | none => none
    | some (x, rest) =>
      match removeAll rest is with
      | none => none
      | some (rem, fin) => some (x :: rem, fin)

/-- The method `Processor::cleanup_threads`; `none` models the panic of an out-of-bounds
`Vec::remove`. -/
def Processor.cleanup_threads (p : Processor) : Option Processor :=
  match removeAll p.threads (computeToRemove p.threads p.should_stop p.max_threads) with
  | none => none
  | some (_, rest) => some { p with threads := rest }

/-- One iteration of the `match` in `Processor::run` on a received message. -/
def Processor.handle (p : Processor) (input : ProcessorInput) : StepResult :=
  match input with
  | ProcessorInput.StopSignal =>
    match Processor.cleanup_threads { p with should_stop := true } with
    | none => StepResult.panicked
    | some p2 =>
      if p2.threads.length = 0 then StepResult.exit p2 else StepResult.next p2 none
  | ProcessorInput.Job j => StepResult.next (p.run_jobs j false) none
  | ProcessorInput.JobEnded =>
    match p.jobs with
    | j :: rest => StepResult.next (Processor.run_jobs { p with jobs := rest } j true) none
    | [] =>
      if p.should_stop then
        match p.cleanup_threads with
        | none => StepResult.panicked
        | some p2 =>
          if p2.threads.length = 0 then StepResult.exit p2 else StepResult.next p2 none
      else StepResult.next p none
  | ProcessorInput.HealthStatus =>
    StepResult.next p
      (some { queue_size := p.jobs.length, active_jobs := p.busy_threads })

/-- One `self.input_recv.recv()` round of `Processor::run`: `Ok(input)` is
handled by `Processor.handle`; `Err(..)` (channel closed) breaks out of the
loop at once. -/
def Processor.recvStep (p : Processor) (input : Option ProcessorInput) : StepResult :=
  match input with
  | some i => p.handle i
  | none => StepResult.exit p

/-- Clear the busy flag of thread `i` (the `busy_inner.store(false, ..)` a
worker performs right before sending `JobEnded`). -/
def setBusyFalse : List Thread → Nat → List Thread
  | [], _ => []
  | t :: ts, 0 => { t with busy := false } :: ts
  | t :: ts, n + 1 => t :: setBusyFalse ts n

/-- System-level events driving the scheduler: an arriving message, a worker
finishing (which clears its busy flag and then delivers `JobEnded` — the two
are serialised here following the happens-before chain of the channel send),
or closure of the input channel. -/
inductive Event where
  | stopSignal : Event
  | jobArrives : Job → Event
  | workerFinished : Nat → Event
  | healthStatus : Event
  | closed : Event
deriving DecidableEq, Repr

/-- One event-loop step of the whole system. -/
def sysStep (p : Processor) (e : Event) : StepResult :=
  match e with
  | Event.stopSignal => p.handle ProcessorInput.StopSignal
  | Event.jobArrives j => p.handle (ProcessorInput.Job j)
  | Event.workerFinished i =>
    Processor.handle { p with threads := setBusyFalse p.threads i } ProcessorInput.JobEnded
  | Event.healthStatus => p.handle ProcessorInput.HealthStatus
  | Event.closed => StepResult.exit p

/-- The scheduler state after a step, when the step did not panic (the loop
keeps running on `next` and has just left it on `exit`). -/
def stateOf : StepResult → Option Processor
  | StepResult.next p _ => some p
  | StepResult.exit p => some p
  | StepResult.panicked => none

/-- The scheduler invariant: threads held in the list are never marked
stopping (`Thread::stop` consumes a thread already removed from the list),
and a non-empty overflow queue means every worker is busy. -/
def Inv (p : Processor) : Prop :=
  (∀ t ∈ p.threads, t.should_stop = false) ∧
  (p.jobs ≠ [] → ∀ t ∈ p.threads, t.busy = true)

instance (p : Processor) : Decidable (Inv p) := by
  unfold Inv
  infer_instance

/-- Index of the first idle (neither stopping nor busy) thread, if any. -/
def firstIdle : List Thread → Option Nat
  | [] => none
  | t :: ts =>
    if t.should_stop || t.busy then (firstIdle ts).map (fun n => n + 1)
    else some 0

/-- The `ProcessorManager` state: `started` is whether `input`/`stop_wait` hold
`Some` channel endpoints; `processor_alive` is whether the spawned scheduler
thread is still running (its `input_recv` receiver and `stop_wait` sender
still open).  `ProcessorManager::stop` first sends `StopSignal` through
`input` with `.unwrap()` and then blocks on `stop_wait.recv().unwrap()`;
once the scheduler thread has exited, whichever of the two runs first hits a
closed channel and the `unwrap` panics, modelled as `Except.error`.  A
successful call returns only after the scheduler thread finished, so it
leaves `processor_alive = false`. -/
structure ProcessorManager where
  started : Bool
  processor_alive : Bool
deriving DecidableEq, Repr

/-- The method `ProcessorManager::stop`. -/
def ProcessorManager.stop (m : ProcessorManager) : Except String ProcessorManager :=
  match m.started with
  | false => Except.ok m
  | true =>
    if m.processor_alive then Except.ok { m with processor_alive := false }
    else Except.error "unwrap: channel closed"

/-- The result a job execution produces on success.  Modelled from the spec:
`jobs::Job` and the `JobOutput` → `Request::Web` conversion are not under
src/; per §6 a `JobOutput` carries at least the `event` string that the
worker reads back out of the parameters of the synthesized request. -/
structure JobOutput where
  event : String
deriving DecidableEq, Repr

/-- One configured status hook.  Modelled from the spec (§4.3): a (Hook,
bound StatusProvider) pair, identified by the hook name, with the
configured event filter of the provider. -/
structure StatusHook where
  hook_name : String
  events : List String
deriving DecidableEq, Repr

/-- The hook repository as the worker uses it.  Modelled from the spec: the
`Hooks` type in src/src/hooks.rs predates `status_hooks_iter`; only the
status-hook lookup matters to the worker. -/
abbrev Hooks := List StatusHook

/-- The query `hooks.status_hooks_iter(event)`.  Modelled from the spec (§4.3, §6
`lookup_status_hooks`): every configured pair whose event filter matches, in
repository iteration order. -/
def status_hooks_iter (hooks : Hooks) (event : String) : List StatusHook :=
  hooks.filter (fun h => h.events.contains event)

/-- The `Job::new(hook_provider.hook.clone(), Some(provider), req.clone())`
follow-up job built for a status hook; it is identified by its hook name
(its execution outcome is supplied by the ambient execution function). -/
def statusJob (h : StatusHook) : Job :=
  { id := 0, hook_name := h.hook_name }

/-- Observable actions of the worker loop while handling one
`ThreadInput::Process(job)` message, in order. -/
inductive ThreadAction where
  | logError : String → ThreadAction
  | processStatusHook : String → ThreadAction
  | clearBusy : ThreadAction
  | sendJobEnded : ThreadAction
deriving DecidableEq, Repr

/-- The status-hook loop in the worker (`for hook_provider in
hooks.status_hooks_iter(event)`): build and process each follow-up job; a
failure is logged (with the hook name) and the loop continues. -/
def statusActions (proc : Job → Except String JobOutput) :
    List StatusHook → List ThreadAction
  | [] => []
  | h :: rest =>
    ThreadAction.processStatusHook h.hook_name ::
      match proc (statusJob h) with
      | Except.error _ => ThreadAction.logError h.hook_name :: statusActions proc rest
      | Except.ok _ => statusActions proc rest

/-- The body of the worker loop for one `ThreadInput::Process(job)` message
(`Thread::new` in processor.rs): run the job; on failure log the error (no
status hooks); on success run every matching status hook inline; finally
clear the busy flag and send exactly one `JobEnded`.  `proc` is the ambient
`Job::process` (script execution is outside the core). -/
def workerStep (hooks : Hooks) (proc : Job → Except String JobOutput)
    (job : Job) : List ThreadAction :=
  (match proc job with
   | Except.error _ => [ThreadAction.logError job.hook_name]
   | Except.ok output => statusActions proc (status_hooks_iter hooks output.event)) ++
  [ThreadAction.clearBusy, ThreadAction.sendJobEnded]

/-- The name of the status hook an action executed, if it is an execution. -/
def statusNameOf : ThreadAction → Option String
  | ThreadAction.processStatusHook h => some h
  | _ => none

/-! ## Helper lemmas -/

theorem runJobThreads_allReject : ∀ (ts : List Thread) (job : Job),
    (∀ t ∈ ts, (t.should_stop || t.busy) = true) →
    runJobThreads ts job = (ts, some job) := by
  intro ts
  induction ts with
  | nil => intro job _; rfl
  | cons t ts ih =>
    intro job h
    have ht : (t.should_stop || t.busy) = true := h t (List.mem_cons_self t ts)
    have hrest := ih job (fun u hu => h u (List.mem_cons_of_mem t hu))
    simp [runJobThreads, Thread.process, ht, hrest]

theorem runJobThreads_reject_eq : ∀ (ts : List Thread) (job : Job)
    (ts' : List Thread) (j : Job),
    runJobThreads ts job = (ts', some j) →
    ts' = ts ∧ j = job ∧ ∀ t ∈ ts, (t.should_stop || t.busy) = true := by
  intro ts
  induction ts with
  | nil =>
    intro job ts' j h
    simp [runJobThreads] at h
    exact ⟨h.1, h.2.symm, by simp⟩
  | cons t ts ih =>
    intro job ts' j h
    by_cases hc : (t.should_stop || t.busy) = true
    · simp only [runJobThreads, Thread.process, hc, if_pos] at h
      rcases hr : runJobThreads ts job with ⟨ts₂, r⟩
      rw [hr] at h
      cases r with
      | none => simp at h
      | some j₂ =>
        simp at h
        rcases h with ⟨h₁, h₂⟩
        rcases ih job ts₂ j₂ hr with ⟨he, hj, hall⟩
        refine ⟨?_, ?_, ?_⟩
        · rw [← h₁, he]
        · rw [← h₂, hj]
        · intro u hu
          rcases List.mem_cons.1 hu with h | h
          · exact h ▸ hc
          · exact hall u h
    · have hc' : (t.should_stop || t.busy) = false := by
        rwa [Bool.not_eq_true] at hc
      simp [runJobThreads, Thread.process, hc'] at h

theorem runJobThreads_wf : ∀ (ts : List Thread) (job : Job),
    (∀ t ∈ ts, t.should_stop = false) →
    ∀ t ∈ (runJobThreads ts job).1, t.should_stop = false := by
  intro ts
  induction ts with
  | nil => intro job _ t ht; simp [runJobThreads] at ht
  | cons t ts ih =>
    intro job h u hu
    have ht : t.should_stop = false := h t (List.mem_cons_self t ts)
    have hrest : ∀ v ∈ ts, v.should_stop = false :=
      fun v hv => h v (List.mem_cons_of_mem t hv)
    by_cases hc : (t.should_stop || t.busy) = true
    · simp only [runJobThreads, Thread.process, hc, if_pos] at hu
      rcases hr : runJobThreads ts job with ⟨ts₂, r⟩
      rw [hr] at hu
      simp at hu
      rcases hu with h | h
      · exact h ▸ ht
      · have := ih job hrest
        rw [hr] at this
        exact this u h
    · have hc' : (t.should_stop || t.busy) = false := by
        rwa [Bool.not_eq_true] at hc
      simp [runJobThreads, Thread.process, hc'] at hu
      rcases hu with h | h
      · rw [h]; exact ht
      · exact hrest u h

theorem run_jobsAux_eq (ts : List Thread) (queue : List Job) (job : Job) (pf : Bool) :
    run_jobsAux ts queue job pf =
      match runJobThreads ts job with
      | (ts', some j) => (ts', if pf then j :: queue else queue ++ [j])
      | (ts', none) =>
        match queue with
        | [] => (ts', [])
        | j :: rest => run_jobsAux ts' rest j pf := by
  cases queue <;> rw [run_jobsAux]

theorem dispatchCount_eq (ts : List Thread) (queue : List Job) (job : Job) :
    dispatchCount ts queue job =
      match runJobThreads ts job with
      | (_, some _) => 0
      | (ts', none) =>
        match queue with
        | [] => 1
        | j :: rest => 1 + dispatchCount ts' rest j := by
  cases queue <;> rw [dispatchCount]

theorem run_jobsAux_inv : ∀ (queue : List Job) (ts : List Thread) (job : Job) (pf : Bool),
    (∀ t ∈ ts, t.should_stop = false) →
    (∀ t ∈ (run_jobsAux ts queue job pf).1, t.should_stop = false) ∧
    ((run_jobsAux ts queue job pf).2 ≠ [] →
      ∀ t ∈ (run_jobsAux ts queue job pf).1, t.busy = true) := by
  intro queue
  induction queue with
  | nil =>
    intro ts job pf hwf
    rw [run_jobsAux_eq]
    rcases hr : runJobThreads ts job with ⟨ts₂, r⟩
    cases r with
    | some j =>
      rcases runJobThreads_reject_eq ts job ts₂ j hr with ⟨he, _, hall⟩
      subst he
      refine ⟨hwf, fun _ t ht => ?_⟩
      have h₁ := hall t ht
      have h₂ := hwf t ht
      rw [h₂] at h₁
      simpa using h₁
    | none =>
      have := runJobThreads_wf ts job hwf
      rw [hr] at this
      exact ⟨this, by simp⟩
  | cons q rest ih =>
    intro ts job pf hwf
    rw [run_jobsAux_eq]
    rcases hr : runJobThreads ts job with ⟨ts₂, r⟩
    cases r with
    | some j =>
      rcases runJobThreads_reject_eq ts job ts₂ j hr with ⟨he, _, hall⟩
      subst he
      refine ⟨hwf, fun _ t ht => ?_⟩
      have h₁ := hall t ht
      have h₂ := hwf t ht
      rw [h₂] at h₁
      simpa using h₁
    | none =>
      have hwf₂ : ∀ t ∈ ts₂, t.should_stop = false := by
        have := runJobThreads_wf ts job hwf
        rw [hr] at this
        exact this
      exact ih ts₂ q pf hwf₂

theorem run_jobsAux_drop : ∀ (queue : List Job) (ts : List Thread) (job : Job),
    (run_jobsAux ts queue job true).2 =
      (job :: queue).drop (dispatchCount ts queue job) := by
  intro queue
  induction queue with
  | nil =>
    intro ts job
    rw [run_jobsAux_eq, dispatchCount_eq]
    rcases hr : runJobThreads ts job with ⟨ts₂, r⟩
    cases r with
    | some j =>
      rcases runJobThreads_reject_eq ts job ts₂ j hr with ⟨_, hj, _⟩
      subst hj
      simp
    | none => simp
  | cons q rest ih =>
    intro ts job
    rw [run_jobsAux_eq, dispatchCount_eq]
    rcases hr : runJobThreads ts job with ⟨ts₂, r⟩
    cases r with
    | some j =>
      rcases runJobThreads_reject_eq ts job ts₂ j hr with ⟨_, hj, _⟩
      subst hj
      simp
    | none =>
      rw [ih ts₂ q]
      simp [Nat.add_comm 1 (dispatchCount ts₂ rest q)]

theorem run_jobsAux_append (ts : List Thread) (queue : List Job) (job : Job)
    (h : ∀ t ∈ ts, (t.should_stop || t.busy) = true) :
    run_jobsAux ts queue job false = (ts, queue ++ [job]) := by
  rw [run_jobsAux_eq, runJobThreads_allReject ts job h]
  simp

theorem run_jobsAux_cons (ts : List Thread) (queue : List Job) (job : Job)
    (h : ∀ t ∈ ts, (t.should_stop || t.busy) = true) :
    run_jobsAux ts queue job true = (ts, job :: queue) := by
  rw [run_jobsAux_eq, runJobThreads_allReject ts job h]
  simp

theorem listRemoveAt_mem : ∀ (l : List Thread) (i : Nat) (x : Thread) (ys : List Thread),
    listRemoveAt l i = some (x, ys) → ∀ y ∈ ys, y ∈ l := by
  intro l
  induction l with
  | nil => intro i x ys h; simp [listRemoveAt] at h
  | cons a l ih =>
    intro i x ys h y hy
    cases i with
    | zero =>
      simp [listRemoveAt] at h
      rw [← h.2] at hy
      exact List.mem_cons_of_mem a hy
    | succ n =>
      simp only [listRemoveAt] at h
      rcases hr : listRemoveAt l n with _ | ⟨z, zs⟩
      · rw [hr] at h; simp at h
      · rw [hr] at h
        simp at h
        rw [← h.2] at hy
        rcases List.mem_cons.1 hy with h' | h'
        · exact h' ▸ List.mem_cons_self a l
        · exact List.mem_cons_of_mem a (ih n z zs hr y h')

theorem removeAll_mem : ∀ (idxs : List Nat) (ts : List Thread)
    (rem fin : List Thread),
    removeAll ts idxs = some (rem, fin) → ∀ t ∈ fin, t ∈ ts := by
  intro idxs
  induction idxs with
  | nil =>
    intro ts rem fin h
    simp [removeAll] at h
    rw [← h.2]
    exact fun t ht => ht
  | cons i is ih =>
    intro ts rem fin h t ht
    rcases hr : listRemoveAt ts i with _ | ⟨x, rest⟩
    · simp [removeAll, hr] at h
    · rcases hr₂ : removeAll rest is with _ | ⟨rem₂, fin₂⟩
      · simp [removeAll, hr, hr₂] at h
      · simp [removeAll, hr, hr₂] at h
        rw [← h.2] at ht
        exact listRemoveAt_mem ts i x rest hr t (ih rest rem₂ fin₂ hr₂ t ht)

theorem cleanup_threads_sub (p p' : Processor)
    (h : p.cleanup_threads = some p') :
    p'.jobs = p.jobs ∧ p'.should_stop = p.should_stop ∧
    p'.max_threads = p.max_threads ∧ ∀ t ∈ p'.threads, t ∈ p.threads := by
  simp only [Processor.cleanup_threads] at h
  rcases hr : removeAll p.threads (computeToRemove p.threads p.should_stop p.max_threads)
      with _ | ⟨rem, fin⟩
  · rw [hr] at h; simp at h
  · rw [hr] at h
    simp at h
    rw [← h]
    exact ⟨rfl, rfl, rfl, removeAll_mem _ p.threads rem fin hr⟩

theorem setBusyFalse_should_stop : ∀ (ts : List Thread) (i : Nat),
    (∀ t ∈ ts, t.should_stop = false) →
    ∀ t ∈ setBusyFalse ts i, t.should_stop = false := by
  intro ts
  induction ts with
  | nil => intro i _ t ht; simp [setBusyFalse] at ht
  | cons a l ih =>
    intro i h t ht
    cases i with
    | zero =>
      simp [setBusyFalse] at ht
      rcases ht with h' | h'
      · rw [h']; exact h a (List.mem_cons_self a l)
      · exact h t (List.mem_cons_of_mem a h')
    | succ n =>
      simp [setBusyFalse] at ht
      rcases ht with h' | h'
      · rw [h']; exact h a (List.mem_cons_self a l)
      · exact ih n (fun u hu => h u (List.mem_cons_of_mem a hu)) t h'

theorem runJobThreads_firstIdle : ∀ (ts : List Thread) (job : Job) (i : Nat),
    firstIdle ts = some i →
    ∃ u, ts.get? i = some u ∧ u.should_stop = false ∧ u.busy = false ∧
      runJobThreads ts job = (ts.set i { u with busy := true }, none) := by
  intro ts
  induction ts with
  | nil => intro job i h; simp [firstIdle] at h
  | cons t ts ih =>
    intro job i h
    by_cases hc : (t.should_stop || t.busy) = true
    · simp only [firstIdle, hc, if_pos] at h
      rcases hfi : firstIdle ts with _ | n
      · rw [hfi] at h; simp at h
      · rw [hfi] at h
        simp at h
        rcases ih job n hfi with ⟨u, hget, hss, hbusy, hrun⟩
        refine ⟨u, ?_, hss, hbusy, ?_⟩
        · rw [← h]; simpa using hget
        · rw [← h]
          simp only [runJobThreads, Thread.process, hc, if_pos, hrun]
          simp
    · have hc' : (t.should_stop || t.busy) = false := by
        rwa [Bool.not_eq_true] at hc
      simp only [firstIdle, hc'] at h
      simp at h
      rcases Bool.or_eq_false_iff.1 hc' with ⟨h₁, h₂⟩
      refine ⟨t, ?_, h₁, h₂, ?_⟩
      · rw [← h]; rfl
      · rw [← h]
        simp [runJobThreads, Thread.process, hc']

theorem firstIdle_none_reject (ts : List Thread)
    (h : firstIdle ts = none) : ∀ t ∈ ts, (t.should_stop || t.busy) = true := by
  induction ts with
  | nil => simp
  | cons t ts ih =>
    intro u hu
    by_cases hc : (t.should_stop || t.busy) = true
    · simp only [firstIdle, hc, if_pos] at h
      rcases List.mem_cons.1 hu with h' | h'
      · exact h' ▸ hc
      · rcases hfi : firstIdle ts with _ | n
        · exact ih hfi u h'
        · rw [hfi] at h; simp at h
    · have hc' : (t.should_stop || t.busy) = false := by
        rwa [Bool.not_eq_true] at hc
      simp [firstIdle, hc'] at h

theorem busyCount_filter : ∀ ts : List Thread,
    busyCount ts = (ts.filter (fun t => t.busy)).length := by
  intro ts
  induction ts with
  | nil => rfl
  | cons t ts ih =>
    by_cases hb : t.busy
    · simp [busyCount, List.filter, hb, ih, Nat.add_comm]
    · simp [busyCount, List.filter, hb, ih]

theorem statusActions_no_clear (proc : Job → Except String JobOutput) :
    ∀ hs : List StatusHook, ThreadAction.clearBusy ∉ statusActions proc hs := by
  intro hs
  induction hs with
  | nil => simp [statusActions]
  | cons h rest ih =>
    simp only [statusActions]
    rcases proc (statusJob h) with _ | _ <;> simp [ih]

theorem statusActions_no_ended (proc : Job → Except String JobOutput) :
    ∀ hs : List StatusHook, ThreadAction.sendJobEnded ∉ statusActions proc hs := by
  intro hs
  induction hs with
  | nil => simp [statusActions]
  | cons h rest ih =>
    simp only [statusActions]
    rcases proc (statusJob h) with _ | _ <;> simp [ih]

theorem statusActions_names (proc : Job → Except String JobOutput) :
    ∀ hs : List StatusHook,
    (statusActions proc hs).filterMap statusNameOf = hs.map StatusHook.hook_name := by
  intro hs
  induction hs with
  | nil => simp [statusActions]
  | cons h rest ih =>
    simp only [statusActions]
    rcases proc (statusJob h) with _ | _ <;>
      simp [statusNameOf, List.filterMap, ih]

theorem run_jobs_inv (p : Processor) (job : Job) (pf : Bool)
    (hwf : ∀ t ∈ p.threads, t.should_stop = false) :
    Inv (p.run_jobs job pf) := by
  have h := run_jobsAux_inv p.jobs p.threads job pf hwf
  rcases hr : run_jobsAux p.threads p.jobs job pf with ⟨ts', q'⟩
  rw [hr] at h
  simp only [Processor.run_jobs, hr, Inv]
  exact h

theorem cleanup_inv (p p₂ : Processor)
    (hwf : ∀ t ∈ p.threads, t.should_stop = false)
    (hbusy : p.jobs ≠ [] → ∀ t ∈ p.threads, t.busy = true)
    (hc : p.cleanup_threads = some p₂) : Inv p₂ := by
  rcases cleanup_threads_sub p p₂ hc with ⟨hj, _, _, hsub⟩
  constructor
  · intro t ht
    exact hwf t (hsub t ht)
  · intro hne t ht
    rw [hj] at hne
    exact hbusy hne t (hsub t ht)

/-! ## Claim theorems -/

/-- Claim C1, counterexample: in a stopping state with one busy worker and
an empty queue, processing `Job(j)` appends `j` to the overflow queue — the
job is not dropped and the state is not unchanged. -/
theorem post_stop_job_counterexample :
    Processor.handle
      { jobs := [], should_stop := true,
        threads := [⟨false, true⟩], max_threads := 1 }
      (ProcessorInput.Job ⟨1, "a"⟩) =
      StepResult.next
        { jobs := [⟨1, "a"⟩], should_stop := true,
          threads := [⟨false, true⟩], max_threads := 1 } none ∧
    StepResult.next
      { jobs := [⟨1, "a"⟩], should_stop := true,
        threads := [⟨false, true⟩], max_threads := 1 } (none : Option HealthDetails) ≠
    StepResult.next
      { jobs := [], should_stop := true,
        threads := [⟨false, true⟩], max_threads := 1 } none := by
  exact ⟨rfl, by decide⟩

/-- Claim C1 (amended): the `Job(j)` handler never consults `should_stop`;
with `should_stop` true the message is processed exactly as when running —
`run_jobs` is invoked, and when every worker is busy the job is appended to
the tail of the overflow queue rather than dropped. -/
theorem post_stop_job_not_dropped (p : Processor) (j : Job)
    (_hstop : p.should_stop = true) :
    p.handle (ProcessorInput.Job j) = StepResult.next (p.run_jobs j false) none ∧
    ((∀ t ∈ p.threads, t.busy = true) →
      p.handle (ProcessorInput.Job j) =
        StepResult.next { p with jobs := p.jobs ++ [j] } none) := by
  refine ⟨rfl, fun hb => ?_⟩
  have hall : ∀ t ∈ p.threads, (t.should_stop || t.busy) = true := by
    intro t ht
    simp [hb t ht]
  simp [Processor.handle, Processor.run_jobs,
    run_jobsAux_append p.threads p.jobs j hall]

/-- Witness for the amended theorem of C1 at a concrete stopping state. -/
theorem post_stop_job_not_dropped_witness :
    Processor.handle
      { jobs := [], should_stop := true,
        threads := [⟨false, true⟩], max_threads := 1 }
      (ProcessorInput.Job ⟨2, "b"⟩) =
      StepResult.next
        { jobs := [⟨2, "b"⟩], should_stop := true,
          threads := [⟨false, true⟩], max_threads := 1 } none :=
  (post_stop_job_not_dropped _ _ rfl).2 (by decide)

/-- Claim C2: `cleanup_threads` computes removal indices over the original
worker list and then removes them one by one from the shifting vector.  With
two idle workers under `should_stop` the second `Vec::remove(1)` hits a
one-element vector and panics (`none`); with workers [idle, idle, busy] the
marked indices `[0, 1]` end up removing the *busy* worker (it appears in the
removed list) while an idle one is left behind. -/
theorem cleanup_threads_bug :
    Processor.cleanup_threads
      { jobs := [], should_stop := true,
        threads := [⟨false, false⟩, ⟨false, false⟩], max_threads := 2 } = none ∧
    computeToRemove [⟨false, false⟩, ⟨false, false⟩, ⟨false, true⟩] true 8 = [0, 1] ∧
    removeAll [⟨false, false⟩, ⟨false, false⟩, ⟨false, true⟩] [0, 1] =
      some ([⟨false, false⟩, ⟨false, true⟩], [⟨false, false⟩]) ∧
    Processor.cleanup_threads
      { jobs := [], should_stop := true,
        threads := [⟨false, false⟩, ⟨false, false⟩, ⟨false, true⟩], max_threads := 8 } =
      some { jobs := [], should_stop := true,
             threads := [⟨false, false⟩], max_threads := 8 } := by
  exact ⟨rfl, rfl, rfl, rfl⟩

/-- Claim C3, counterexample: after a first `stop()` has returned, the
scheduler thread has exited and both channel peers are gone; a second
`stop()` panics on an `unwrap` instead of being a no-op. -/
theorem stop_second_call_counterexample :
    ProcessorManager.stop { started := true, processor_alive := true } =
      Except.ok { started := true, processor_alive := false } ∧
    ProcessorManager.stop { started := true, processor_alive := false } =
      Except.error "unwrap: channel closed" :=
  ⟨rfl, rfl⟩

/-- Claim C3 (amended): on a started manager whose scheduler thread is still
alive, `stop()` returns normally, and a subsequent `stop()` call panics on
the `unwrap` of a closed channel operation — it is not a no-op. -/
theorem stop_second_call_panics (m : ProcessorManager)
    (hs : m.started = true) (ha : m.processor_alive = true) :
    ∃ m', m.stop = Except.ok m' ∧ m'.started = true ∧
      m'.processor_alive = false ∧
      m'.stop = Except.error "unwrap: channel closed" := by
  refine ⟨{ m with processor_alive := false }, ?_, hs, rfl, ?_⟩
  · simp [ProcessorManager.stop, hs, ha]
  · simp [ProcessorManager.stop, hs]

/-- Witness for the amended theorem of C3 at a concrete started manager. -/
theorem stop_second_call_panics_witness :
    ∃ m', ProcessorManager.stop { started := true, processor_alive := true } =
        Except.ok m' ∧ m'.started = true ∧ m'.processor_alive = false ∧
      m'.stop = Except.error "unwrap: channel closed" :=
  stop_second_call_panics _ rfl rfl

/-- Claim C4, counterexample: on channel closure (`recv` returns `Err`) the
loop breaks at once with the state untouched, while a `StopSignal` at the
same state would set `should_stop`, clean up the idle worker and exit with
an empty worker list — the two behaviours differ. -/
theorem channel_closed_counterexample :
    Processor.recvStep
      { jobs := [], should_stop := false,
        threads := [⟨false, false⟩], max_threads := 1 } none =
      StepResult.exit
        { jobs := [], should_stop := false,
          threads := [⟨false, false⟩], max_threads := 1 } ∧
    Processor.handle
      { jobs := [], should_stop := false,
        threads := [⟨false, false⟩], max_threads := 1 }
      ProcessorInput.StopSignal =
      StepResult.exit
        { jobs := [], should_stop := true, threads := [], max_threads := 1 } ∧
    Processor.recvStep
      { jobs := [], should_stop := false,
        threads := [⟨false, false⟩], max_threads := 1 } none ≠
    Processor.handle
      { jobs := [], should_stop := false,
        threads := [⟨false, false⟩], max_threads := 1 }
      ProcessorInput.StopSignal := by
  exact ⟨rfl, rfl, by decide⟩

/-- Claim C4 (amended): when the scheduler input channel is closed, the
event loop exits immediately with its state unchanged: `should_stop` is not
set, no worker cleanup or joining is performed and queued jobs are simply
discarded with the state. -/
theorem channel_closed_exits_immediately (p : Processor) :
    p.recvStep none = StepResult.exit p :=
  rfl

/-- Claim C7: a `HealthStatus` probe replies with the current queue length
and the number of busy workers, and leaves the scheduler state (queue,
worker list, `should_stop`) untouched; `busy_threads` counts exactly the
workers with the busy flag set. -/
theorem health_status_snapshot (p : Processor) :
    p.handle ProcessorInput.HealthStatus =
      StepResult.next p
        (some { queue_size := p.jobs.length, active_jobs := p.busy_threads }) ∧
    p.busy_threads = (p.threads.filter (fun t => t.busy)).length :=
  ⟨rfl, busyCount_filter p.threads⟩

/-- Claim C9, counterexample: `Processor::new` is infallible — with
`max_threads = 0` it succeeds, `run` spawns no worker, and a submitted job
is queued (never dispatched) rather than any construction-time rejection. -/
theorem max_threads_zero_counterexample :
    (Processor.new 0).max_threads = 0 ∧
    Processor.run_init (Processor.new 0) = Processor.new 0 ∧
    Processor.handle (Processor.new 0) (ProcessorInput.Job ⟨1, "a"⟩) =
      StepResult.next
        { jobs := [⟨1, "a"⟩], should_stop := false,
          threads := [], max_threads := 0 } none :=
  ⟨rfl, rfl, rfl⟩

/-- Claim C9 (amended): construction accepts `max_threads = 0` (there is no
error path), the scheduler then owns no workers, and every `Job` input is
appended to the overflow queue, which is never drained. -/
theorem max_threads_zero_queues_forever (j : Job) (p : Processor)
    (h : p.threads = []) :
    (Processor.run_init (Processor.new 0)).threads = [] ∧
    p.handle (ProcessorInput.Job j) =
      StepResult.next { p with jobs := p.jobs ++ [j] } none := by
  refine ⟨rfl, ?_⟩
  have hall : ∀ t ∈ p.threads, (t.should_stop || t.busy) = true := by
    rw [h]
    simp
  simp [Processor.handle, Processor.run_jobs,
    run_jobsAux_append p.threads p.jobs j hall]

/-- Witness for the amended theorem of C9 on the worker-less scheduler. -/
theorem max_threads_zero_queues_forever_witness :
    (Processor.run_init (Processor.new 0)).threads = [] ∧
    Processor.handle
      { jobs := [], should_stop := false, threads := [], max_threads := 0 }
      (ProcessorInput.Job ⟨3, "c"⟩) =
      StepResult.next
        { jobs := [⟨3, "c"⟩], should_stop := false,
          threads := [], max_threads := 0 } none :=
  max_threads_zero_queues_forever ⟨3, "c"⟩ _ rfl

theorem run_jobsAux_nil_snd (ts : List Thread) (j : Job) :
    (run_jobsAux ts [] j false).2 = List.drop (dispatchCount ts [] j) [j] := by
  rw [run_jobsAux_eq, dispatchCount_eq]
  rcases hr : runJobThreads ts j with ⟨ts₃, r⟩
  cases r with
  | some j₂ =>
    rcases runJobThreads_reject_eq ts j ts₃ j₂ hr with ⟨_, hj, _⟩
    subst hj
    simp
  | none => simp

/-- Claim C5: the overflow queue is used as a strict FIFO.  From any state
satisfying the scheduler invariant: a `Job(j)` arriving while the queue is
non-empty is appended to the tail; with an empty queue it is either
dispatched or becomes the sole queue element; and on a worker `JobEnded`
the handler dispatches jobs strictly from the head — the resulting queue is
`p.jobs.drop k` where `k` counts the successful dispatches (a popped head
that cannot be dispatched is pushed back to the head, leaving the queue
unchanged, `k = 0`).  Dequeue order therefore equals enqueue order. -/
theorem overflow_fifo (p : Processor) (hInv : Inv p) :
    (∀ j : Job, p.jobs ≠ [] →
      sysStep p (Event.jobArrives j) =
        StepResult.next { p with jobs := p.jobs ++ [j] } none) ∧
    (∀ j : Job, p.jobs = [] → ∃ ts' : List Thread,
      sysStep p (Event.jobArrives j) =
        StepResult.next
          { p with
            threads := ts',
            jobs := List.drop (dispatchCount p.threads [] j) [j] } none) ∧
    (∀ (i : Nat) (j : Job) (rest : List Job), p.jobs = j :: rest →
      ∃ ts' : List Thread,
      sysStep p (Event.workerFinished i) =
        StepResult.next
          { p with
            threads := ts',
            jobs := List.drop
              (dispatchCount (setBusyFalse p.threads i) rest j) p.jobs }
          none) := by
  refine ⟨?_, ?_, ?_⟩
  · intro j hne
    have hall : ∀ t ∈ p.threads, (t.should_stop || t.busy) = true := by
      intro t ht
      simp [hInv.2 hne t ht]
    simp [sysStep, Processor.handle, Processor.run_jobs,
      run_jobsAux_append p.threads p.jobs j hall]
  · intro j hnil
    rcases hq : run_jobsAux p.threads [] j false with ⟨ts₂, q₂⟩
    refine ⟨ts₂, ?_⟩
    have hsnd := run_jobsAux_nil_snd p.threads j
    rw [hq] at hsnd
    simp [sysStep, Processor.handle, Processor.run_jobs, hnil, hq, hsnd]
  · intro i j rest hj
    rcases hq : run_jobsAux (setBusyFalse p.threads i) rest j true with ⟨ts₂, q₂⟩
    refine ⟨ts₂, ?_⟩
    have hd := run_jobsAux_drop rest (setBusyFalse p.threads i) j
    rw [hq] at hd
    simp [sysStep, Processor.handle, Processor.run_jobs, hj, hq, hd]

/-- Witness for C5 on a concrete saturated state: the arriving job is
appended to the queue tail. -/
theorem overflow_fifo_witness :
    sysStep
      { jobs := [⟨1, "a"⟩], should_stop := false,
        threads := [⟨false, true⟩], max_threads := 1 }
      (Event.jobArrives ⟨2, "b"⟩) =
      StepResult.next
        { jobs := [⟨1, "a"⟩, ⟨2, "b"⟩], should_stop := false,
          threads := [⟨false, true⟩], max_threads := 1 } none :=
  (overflow_fifo _ (by decide)).1 _ (by decide)

/-- Claim C6: `Thread::process` rejects without mutation when the thread is
stopping or busy; `run_job` hands the job to the lowest-index idle worker,
whose busy flag is set in the returned state; when no worker is idle the
dispatch fails and returns the job with no thread changed. -/
theorem dispatch_first_idle (ts : List Thread) (job : Job) (t : Thread) :
    ((t.should_stop = true ∨ t.busy = true) → t.process job = (t, some job)) ∧
    (∀ i : Nat, firstIdle ts = some i → ∃ u : Thread,
      ts.get? i = some u ∧ u.should_stop = false ∧ u.busy = false ∧
      runJobThreads ts job = (ts.set i { u with busy := true }, none)) ∧
    (firstIdle ts = none → runJobThreads ts job = (ts, some job)) := by
  refine ⟨?_, ?_, ?_⟩
  · intro h
    have hc : (t.should_stop || t.busy) = true := by
      rcases h with h | h <;> simp [h]
    simp [Thread.process, hc]
  · intro i hi
    exact runJobThreads_firstIdle ts job i hi
  · intro h
    exact runJobThreads_allReject ts job (firstIdle_none_reject ts h)

/-- Witness for C6: with workers [busy, idle] the job goes to index 1, whose
busy flag is set in the result. -/
theorem dispatch_first_idle_witness :
    ∃ u : Thread,
      ([⟨false, true⟩, ⟨false, false⟩] : List Thread).get? 1 = some u ∧
      u.should_stop = false ∧ u.busy = false ∧
      runJobThreads [⟨false, true⟩, ⟨false, false⟩] ⟨5, "w"⟩ =
        (([⟨false, true⟩, ⟨false, false⟩] : List Thread).set 1
          { u with busy := true }, none) :=
  (dispatch_first_idle _ ⟨5, "w"⟩ ⟨false, false⟩).2.1 1 (by decide)

/-- Claim C8: for one `Process(job)` message the worker action trace ends
with clearing the busy flag followed by exactly one `JobEnded`; a failed
primary job runs no status hooks; a successful one runs every matching
status hook (in repository order), and a status-hook failure is logged
without stopping the remaining hooks (every matching hook still appears in
the executed sequence, whatever `proc` returns for it). -/
theorem worker_job_lifecycle (hooks : Hooks)
    (proc : Job → Except String JobOutput) (job : Job) :
    ∃ body : List ThreadAction,
      workerStep hooks proc job =
        body ++ [ThreadAction.clearBusy, ThreadAction.sendJobEnded] ∧
      ThreadAction.clearBusy ∉ body ∧ ThreadAction.sendJobEnded ∉ body ∧
      (∀ e : String, proc job = Except.error e →
        ∀ h : String, ThreadAction.processStatusHook h ∉ body) ∧
      (∀ out : JobOutput, proc job = Except.ok out →
        body.filterMap statusNameOf =
          (status_hooks_iter hooks out.event).map StatusHook.hook_name) := by
  rcases hp : proc job with e | out
  · refine ⟨[ThreadAction.logError job.hook_name], ?_, by simp, by simp, ?_, ?_⟩
    · simp [workerStep, hp]
    · intro e' _ h
      simp
    · intro out hout
      simp at hout
  · refine ⟨statusActions proc (status_hooks_iter hooks out.event), ?_,
      statusActions_no_clear proc _, statusActions_no_ended proc _, ?_, ?_⟩
    · simp [workerStep, hp]
    · intro e he
      simp at he
    · intro out' hout
      simp at hout
      subst hout
      exact statusActions_names proc _

/-- Witness for C8 at a concrete repository and execution function. -/
theorem worker_job_lifecycle_witness :
    ∃ body : List ThreadAction,
      workerStep [⟨"notify", ["done"]⟩, ⟨"other", ["x"]⟩]
        (fun j => if j.hook_name = "boom" then Except.error "e"
                  else Except.ok ⟨"done"⟩)
        ⟨1, "example"⟩ =
        body ++ [ThreadAction.clearBusy, ThreadAction.sendJobEnded] ∧
      ThreadAction.clearBusy ∉ body ∧ ThreadAction.sendJobEnded ∉ body ∧
      (∀ e : String,
        (fun j : Job => if j.hook_name = "boom" then Except.error "e"
                        else Except.ok (⟨"done"⟩ : JobOutput)) ⟨1, "example"⟩ =
          Except.error e →
        ∀ h : String, ThreadAction.processStatusHook h ∉ body) ∧
      (∀ out : JobOutput,
        (fun j : Job => if j.hook_name = "boom" then Except.error "e"
                        else Except.ok (⟨"done"⟩ : JobOutput)) ⟨1, "example"⟩ =
          Except.ok out →
        body.filterMap statusNameOf =
          (status_hooks_iter [⟨"notify", ["done"]⟩, ⟨"other", ["x"]⟩]
            out.event).map StatusHook.hook_name) :=
  worker_job_lifecycle _ _ _

/-- Claim C10: the implicit invariant — a non-empty overflow queue implies
every listed worker is busy (together with the auxiliary fact that listed
workers are never marked stopping) — holds in every initial state and is
preserved by every event-loop step that does not panic. -/
theorem queue_invariant (p : Processor) (e : Event) (p' : Processor)
    (hInv : Inv p) (hs : stateOf (sysStep p e) = some p') :
    Inv p' ∧ ∀ mt : Nat, Inv (Processor.run_init (Processor.new mt)) := by
  constructor
  · cases e with
    | stopSignal =>
      rcases hc : Processor.cleanup_threads { p with should_stop := true }
          with _ | p₂
      · simp [sysStep, Processor.handle, hc, stateOf] at hs
      · have h₂ : Inv p₂ :=
          cleanup_inv { p with should_stop := true } p₂
            (fun t ht => hInv.1 t ht) (fun hne t ht => hInv.2 hne t ht) hc
        by_cases hl : p₂.threads.length = 0
        · simp [sysStep, Processor.handle, hc, hl, stateOf] at hs
          subst hs
          exact h₂
        · simp [sysStep, Processor.handle, hc, hl, stateOf] at hs
          subst hs
          exact h₂
    | jobArrives j =>
      have h := run_jobs_inv p j false hInv.1
      simp [sysStep, Processor.handle, stateOf] at hs
      subst hs
      exact h
    | workerFinished i =>
      have hwf₀ : ∀ t ∈ setBusyFalse p.threads i, t.should_stop = false :=
        setBusyFalse_should_stop p.threads i hInv.1
      cases hj : p.jobs with
      | cons j rest =>
        have h := run_jobs_inv
          { p with threads := setBusyFalse p.threads i, jobs := rest } j true
          hwf₀
        simp [sysStep, Processor.handle, hj, stateOf] at hs
        subst hs
        exact h
      | nil =>
        by_cases hss : p.should_stop = true
        · rcases hc : Processor.cleanup_threads
              { jobs := [], should_stop := true,
                threads := setBusyFalse p.threads i,
                max_threads := p.max_threads } with _ | p₂
          · simp [sysStep, Processor.handle, hj, hss, hc, stateOf] at hs
          · have h₂ : Inv p₂ :=
              cleanup_inv
                { jobs := [], should_stop := true,
                  threads := setBusyFalse p.threads i,
                  max_threads := p.max_threads } p₂
                hwf₀ (fun hne => absurd rfl hne) hc
            by_cases hl : p₂.threads = []
            · simp [sysStep, Processor.handle, hj, hss, hc, hl, stateOf] at hs
              subst hs
              exact h₂
            · simp [sysStep, Processor.handle, hj, hss, hc, hl, stateOf] at hs
              subst hs
              exact h₂
        · simp [sysStep, Processor.handle, hj, hss, stateOf] at hs
          subst hs
          exact ⟨hwf₀, fun hne => absurd rfl hne⟩
    | healthStatus =>
      simp [sysStep, Processor.handle, stateOf] at hs
      subst hs
      exact hInv
    | closed =>
      simp [sysStep, stateOf] at hs
      subst hs
      exact hInv
  · intro mt
    constructor
    · intro t ht
      simp [Processor.run_init, Processor.new, List.mem_replicate] at ht
      rw [ht.2]
      rfl
    · intro hne
      exact absurd rfl hne

/-- Witness for C10 at a concrete invariant-satisfying state and a health
probe step. -/
theorem queue_invariant_witness :
    Inv { jobs := [(⟨1, "a"⟩ : Job)], should_stop := false,
          threads := [⟨false, true⟩], max_threads := 1 } ∧
    ∀ mt : Nat, Inv (Processor.run_init (Processor.new mt)) :=
  queue_invariant
    { jobs := [⟨1, "a"⟩], should_stop := false,
      threads := [⟨false, true⟩], max_threads := 1 }
    Event.healthStatus
    { jobs := [⟨1, "a"⟩], should_stop := false,
      threads := [⟨false, true⟩], max_threads := 1 }
    (by decide) rfl

end Fisher
